/-
  Verification of the echoes-mcp incremental indexing pipeline.

  This file gives a shallow embedding of the parts of the repository that the
  frozen claims are about:
    - the point-of-view derivation of the content scanner
      (src/echoes_mcp/indexer/scanner.py, extract_chapter_info),
    - the relation-record weight validation
      (src/echoes_mcp/database/schemas.py, RelationRecord),
    - the extraction vocabularies and the bilingual type normalizer
      (src/echoes_mcp/indexer/extractor.py and database/schemas.py),
    - the reconciliation engine
      (src/echoes_mcp/tools/index.py, index_timeline).

  The Database class (get_chapter_hashes, upsert_chapters,
  delete_chapters_by_paths) is not part of the sources; its operations are
  modelled from the spec, sections 4.5 and 6, as marked on each definition.
  Console output and wall-clock duration are observability concerns and are
  not modelled; the run is instead given an explicit effect log recording
  the texts sent to the embedding service, the records upserted, and the
  paths handed to the delete operation.
-/
import Mathlib

namespace Echoes

/-! ## Content scanner: point-of-view derivation

Translation of the pov logic of extract_chapter_info
(scanner.py, lines 78 to 85).  The Python code is

  pov = metadata.get("pov", "")
  if not pov and ch_match:
      name_parts = file_path.stem.split("-")
      if len(name_parts) >= 3:
          pov = name_parts[2]
  pov = pov.lower() if pov else "unknown"

where ch_match is the anchored regex match of ep digits, a hyphen, ch digits
against the file stem (line 74). -/

/-- Anchored match of the Python regex for chapter stems: the stem starts
with ep, one or more digits, then -ch and one or more digits. -/
def chMatch : List Char → Bool
  | 'e' :: 'p' :: rest =>
    let ds := rest.takeWhile Char.isDigit
    let after := rest.dropWhile Char.isDigit
    ds ≠ [] &&
      (match after with
       | '-' :: 'c' :: 'h' :: tail => tail.takeWhile Char.isDigit ≠ []
       | _ => false)
  | _ => false

/-- Python str.split on a one-character separator: splitting the empty
string yields one empty piece, and adjacent separators yield empty pieces. -/
def splitOnChar (sep : Char) : List Char → List (List Char)
  | [] => [[]]
  | c :: rest =>
    let r := splitOnChar sep rest
    if c = sep then [] :: r
    else
      match r with
      | h :: t => (c :: h) :: t
      | [] => [[c]]

/-- The hyphen-separated tokens of a stem, Python stem.split with hyphen. -/
def stemTokens (stem : String) : List String :=
  (splitOnChar '-' stem.toList).map String.mk

/-- Python str.lower, modelled as the character-wise lower-casing. -/
def strLower (s : String) : String :=
  String.mk (s.toList.map Char.toLower)

/-- The filename fallback of extract_chapter_info: when the arriving pov is
empty and the stem matches the chapter pattern, a stem of at least three
hyphen-separated tokens contributes its third token. -/
def povAfterFallback (pov : String) (stem : String) : String :=
  if pov = "" ∧ chMatch stem.toList then
    match stemTokens stem with
    | _ :: _ :: t :: _ => t
    | _ => pov
  else pov

/-- The pov computation of extract_chapter_info.  metaPov is the value of the
pov key of the parsed frontmatter when the key is present (Python
metadata.get), stem is the file base name without extension. -/
def extractPov (metaPov : Option String) (stem : String) : String :=
  let pov := povAfterFallback (metaPov.getD "") stem
  if pov = "" then "unknown" else strLower pov

/-! ## Database schemas: relation weight validation

RelationRecord (schemas.py, lines 89 to 103) declares
weight: float = Field(ge=0.0, le=1.0, ...).  Pydantic rejects construction
with a weight outside the closed interval with a ValidationError; it does
not clamp.  The weight is modelled as a rational. -/

structure RelationRecord where
  id : String
  source_entity : String
  target_entity : String
  /-- The field named type in the source; type is reserved in Lean. -/
  rtype : String
  description : String
  weight : ℚ
  chapters : List String
  indexed_at : Int
  deriving DecidableEq, Repr

/-- Validated construction of a RelationRecord, mirroring the pydantic
constraint ge 0, le 1 on weight: out-of-range input is rejected with a
validation error and in-range input is stored unchanged. -/
def mkRelationRecord (id source_entity target_entity rtype description : String)
    (weight : ℚ) (chapters : List String) (indexed_at : Int) :
    Except String RelationRecord :=
  if 0 ≤ weight ∧ weight ≤ 1 then
    .ok ⟨id, source_entity, target_entity, rtype, description, weight, chapters, indexed_at⟩
  else
    .error "ValidationError"

/-! ## Extractor vocabularies and the type normalizer -/

/-- The fixed entity vocabulary of the extractor (extractor.py, lines 10 to 15). -/
def ENTITY_TYPES : List String := ["PERSONAGGIO", "LUOGO", "EVENTO", "OGGETTO"]

/-- The fixed relation vocabulary of the extractor (extractor.py, lines 18 to 36). -/
def RELATION_TYPES : List String :=
  ["AMA", "ODIA", "CONOSCE", "PARENTE_DI", "AMICO_DI",
   "SI_TROVA_IN", "VIVE_A", "VA_A",
   "CAUSA", "PRECEDE", "SEGUE",
   "POSSIEDE", "USA"]

/-- The canonical entity vocabulary of the store (schemas.py, line 7). -/
def EntityTypeValues : List String :=
  ["CHARACTER", "LOCATION", "EVENT", "OBJECT", "EMOTION"]

/-- The canonical relation vocabulary of the store (schemas.py, lines 9 to 29). -/
def RelationTypeValues : List String :=
  ["LOVES", "HATES", "KNOWS", "RELATED_TO", "FRIENDS_WITH", "ENEMIES_WITH",
   "LOCATED_IN", "LIVES_IN", "TRAVELS_TO",
   "HAPPENS_BEFORE", "HAPPENS_AFTER", "CAUSES",
   "OWNS", "USES", "SEEKS"]

/-- Modelled from the spec: the entity mapping table of the Type Normalizer
(spec section 4.2) is not in the sources; only tests/test_extractor.py names
it and pins the four entries asserted there.  One entry per extractor label,
onto the canonical store vocabulary. -/
def ENTITY_TYPE_MAP : List (String × String) :=
  [("PERSONAGGIO", "CHARACTER"), ("LUOGO", "LOCATION"),
   ("EVENTO", "EVENT"), ("OGGETTO", "OBJECT")]

/-- Modelled from the spec: the relation mapping table of the Type Normalizer
(spec section 4.2) is not in the sources; tests/test_extractor.py pins five of
the entries.  One entry per extractor label, onto the canonical store
vocabulary. -/
def RELATION_TYPE_MAP : List (String × String) :=
  [("AMA", "LOVES"), ("ODIA", "HATES"), ("CONOSCE", "KNOWS"),
   ("PARENTE_DI", "RELATED_TO"), ("AMICO_DI", "FRIENDS_WITH"),
   ("SI_TROVA_IN", "LOCATED_IN"), ("VIVE_A", "LIVES_IN"), ("VA_A", "TRAVELS_TO"),
   ("CAUSA", "CAUSES"), ("PRECEDE", "HAPPENS_BEFORE"), ("SEGUE", "HAPPENS_AFTER"),
   ("POSSIEDE", "OWNS"), ("USA", "USES")]

/-- Lookup in an association table, first matching key. -/
def tableGet : List (String × String) → String → Option String
  | [], _ => none
  | (k, v) :: rest, key => if key = k then some v else tableGet rest key

/-- Modelled from the spec: lookup on an unmapped key fails with
UnknownTypeError (spec section 4.2). -/
def normalizeEntityType (t : String) : Except String String :=
  match tableGet ENTITY_TYPE_MAP t with
  | some v => .ok v
  | none => .error "UnknownTypeError"

/-- Modelled from the spec: lookup on an unmapped key fails with
UnknownTypeError (spec section 4.2). -/
def normalizeRelationType (t : String) : Except String String :=
  match tableGet RELATION_TYPE_MAP t with
  | some v => .ok v
  | none => .error "UnknownTypeError"

/-- An extracted entity: the dict shape name, type, description of the
extractor output.  The field named type in the source is rendered etype. -/
structure RawEntity where
  name : String
  etype : String
  description : String
  deriving DecidableEq, Repr

/-- An extracted relation: the dict shape source, target, type. -/
structure RawRelation where
  source : String
  target : String
  rtype : String
  deriving DecidableEq, Repr

/-- Modelled from the spec: the extractor treats UnknownTypeError as drop the
entity, never crash the pipeline (spec section 4.2), so normalization is a
total function that keeps exactly the entities whose label is mapped. -/
def normalizeEntities (es : List RawEntity) : List RawEntity :=
  es.filterMap fun e =>
    match normalizeEntityType e.etype with
    | .ok v => some { e with etype := v }
    | .error _ => none

/-- Modelled from the spec: the extractor treats UnknownTypeError as drop the
relation, never crash the pipeline (spec section 4.2). -/
def normalizeRelations (rs : List RawRelation) : List RawRelation :=
  rs.filterMap fun r =>
    match normalizeRelationType r.rtype with
    | .ok v => some { r with rtype := v }
    | .error _ => none

/-! ## Reconciliation engine

Data model of scanner.py ChapterFile and of the chapter record prepared for
the store by index.py prepare_chapter_record.  The derived statistics fields
word_count, char_count and paragraph_count are computed by
tools/words_count.py, which is not in the sources, and the indexed_at field
is the wall clock; neither is consulted by any claim, so the record model
omits them.  The rich progress output of index_timeline is pure
observability and is likewise not modelled. -/

/-- Parsed chapter file data (scanner.py, ChapterFile). -/
structure ChapterFile where
  file_path : String
  file_hash : String
  arc : String
  episode : Nat
  chapter : Nat
  pov : String
  title : String
  location : Option String
  date : Option String
  excerpt : Option String
  content : String
  deriving DecidableEq, Repr

/-- Zero-padded decimal rendering, mirroring the Python format specifiers
02d and 03d in prepare_chapter_record. -/
def padNum (width n : Nat) : String :=
  let s := toString n
  String.mk (List.replicate (width - s.length) '0') ++ s

/-- The chapter identity key arc:epNN:chNNN built by prepare_chapter_record. -/
def chapterId (c : ChapterFile) : String :=
  c.arc ++ ":ep" ++ padNum 2 c.episode ++ ":ch" ++ padNum 3 c.chapter

/-- The chapter record written to the store (index.py,
prepare_chapter_record), restricted to the fields the store contract and the
claims consult; see the section comment for the omitted derived fields. -/
structure StoredRecord where
  id : String
  file_path : String
  file_hash : String
  arc : String
  episode : Nat
  chapter : Nat
  pov : String
  title : String
  location : Option String
  date : Option String
  content : String
  excerpt : String
  vector : List ℚ
  deriving DecidableEq, Repr

/-- Prepare chapter record for the store (index.py, prepare_chapter_record).
The excerpt falls back to the first 200 characters of the content when the
frontmatter excerpt is missing or empty, mirroring the Python or. -/
def prepare_chapter_record (c : ChapterFile) (vector : List ℚ) : StoredRecord :=
  { id := chapterId c
    file_path := c.file_path
    file_hash := c.file_hash
    arc := c.arc
    episode := c.episode
    chapter := c.chapter
    pov := c.pov
    title := c.title
    location := c.location
    date := c.date
    content := c.content
    excerpt :=
      match c.excerpt with
      | some e => if e = "" then c.content.take 200 else e
      | none => c.content.take 200
    vector := vector }

/-- The vector store is its list of chapter records. -/
abbrev Store := List StoredRecord

/-- A string-keyed dictionary as an association list with unique keys by
construction, in insertion order, modelling a Python dict. -/
abbrev HashDict := List (String × String)

/-- Python dict insertion: an existing key keeps its position and takes the
new value, a fresh key is appended. -/
def dictInsert (m : HashDict) (k v : String) : HashDict :=
  if m.any (fun p => p.1 = k) then
    m.map (fun p => if p.1 = k then (k, v) else p)
  else
    m ++ [(k, v)]

/-- Python dict get. -/
def dictGet : HashDict → String → Option String
  | [], _ => none
  | (k2, v) :: rest, k => if k = k2 then some v else dictGet rest k

/-- Python dict key view, in insertion order. -/
def dictKeys (m : HashDict) : List String := m.map Prod.fst

/-- Modelled from the spec: the store operation fetch-all-(path,fingerprint)-
pairs (spec section 6); the Database class is not in the sources.  Builds the
path-to-hash dict from the chapter records in store order. -/
def get_chapter_hashes (store : Store) : HashDict :=
  store.foldl (fun m r => dictInsert m r.file_path r.file_hash) []

/-- Modelled from the spec: upsert of one record keyed by chapter identity
(spec section 4.5 step 7): a record with the same key is fully replaced in
place, otherwise the record is created. -/
def upsertOne (store : Store) (r : StoredRecord) : Store :=
  if store.any (fun s => s.id = r.id) then
    store.map (fun s => if s.id = r.id then r else s)
  else
    store ++ [r]

/-- Modelled from the spec: the batch upsert of the store contract
(spec sections 4.5 and 6), one upsert per record in batch order. -/
def upsert_chapters (store : Store) (records : List StoredRecord) : Store :=
  records.foldl upsertOne store

/-- Modelled from the spec: deletion looked up by file path (spec section 4.5
step 8); returns the surviving store and the number of records removed. -/
def delete_chapters_by_paths (store : Store) (paths : List String) : Store × Nat :=
  (store.filter (fun r => r.file_path ∉ paths),
   (store.filter (fun r => r.file_path ∈ paths)).length)

/-- Result of index operation (index.py, IndexResult).  The float
duration_seconds field is the wall clock and is not modelled. -/
structure IndexResult where
  indexed : Nat
  updated : Nat
  deleted : Nat
  entities : Nat
  relations : Nat
  deriving DecidableEq, Repr

/-- Effect log of one run: the texts sent to the embedding service, the
records handed to the store upsert, and the paths handed to the store
delete. -/
structure RunEffects where
  embedded : List String
  upserted : List StoredRecord
  deleteRequest : List String
  deriving DecidableEq, Repr

/-- A full run outcome: the returned counts, the store after the run, and
the effect log. -/
structure RunOutput where
  result : IndexResult
  store : Store
  effects : RunEffects
  deriving DecidableEq, Repr

def zeroResult : IndexResult := ⟨0, 0, 0, 0, 0⟩

/-- The arc filter applied to the scanned chapters (index.py, lines 94 to 95). -/
def filteredChapters (scanned : List ChapterFile) : Option String → List ChapterFile
  | some a => scanned.filter (fun c => c.arc = a)
  | none => scanned

/-- The changed-chapter partition (index.py, lines 112 to 117): a chapter is
to be indexed when the stored hash for its path differs from its fresh hash,
absence of a stored hash counting as different. -/
def toIndexOf (chapters : List ChapterFile) (existing : HashDict) : List ChapterFile :=
  chapters.filter (fun c => dictGet existing c.file_path ≠ some c.file_hash)

/-- The deletion diff (index.py, lines 119 to 121): stored paths absent from
the freshly scanned path set. -/
def deletedPathsOf (chapters : List ChapterFile) (existing : HashDict) : List String :=
  (dictKeys existing).filter (fun p => p ∉ chapters.map ChapterFile.file_path)

/-- The records prepared for one run: each chapter of to_index embedded on
the first 2000 characters of its body (index.py, lines 136 to 164). -/
def recordsOf (embedOne : String → List ℚ) (ti : List ChapterFile) : List StoredRecord :=
  ti.map (fun c => prepare_chapter_record c (embedOne (c.content.take 2000)))

/-- The reconciliation run (index.py, index_timeline).  The filesystem scan
result is the scanned argument; a second run on an unchanged filesystem
receives the same list.  The embedding service is the embedOne argument,
applied to each text of the batch, mirroring embed_texts, which returns one
vector per input text and is not called on an empty batch. -/
def index_timeline (scanned : List ChapterFile) (store : Store) (force : Bool)
    (arc_filter : Option String) (embedOne : String → List ℚ) : RunOutput :=
  let chapters := filteredChapters scanned arc_filter
  if chapters.isEmpty then
    ⟨zeroResult, store, ⟨[], [], []⟩⟩
  else
    let existing := if force then [] else get_chapter_hashes store
    let to_index := toIndexOf chapters existing
    let deleted_paths := deletedPathsOf chapters existing
    if to_index.isEmpty && deleted_paths.isEmpty then
      ⟨zeroResult, store, ⟨[], [], []⟩⟩
    else
      let texts := to_index.map (fun c => c.content.take 2000)
      let vectors := texts.map embedOne
      let records := (to_index.zip vectors).map (fun cv => prepare_chapter_record cv.1 cv.2)
      let indexed := (records.filter (fun r => dictGet existing r.file_path = none)).length
      let updated := records.length - indexed
      let store1 := if records.isEmpty then store else upsert_chapters store records
      let afterDelete :=
        if deleted_paths.isEmpty then (store1, 0)
        else delete_chapters_by_paths store1 deleted_paths
      ⟨⟨indexed, updated, afterDelete.2, 0, 0⟩, afterDelete.1,
       ⟨texts, records, deleted_paths⟩⟩

/-! ## Claim C8: the pov rule of the spec, stated and amended

povClaim renders the claim exactly as written: header value if present,
otherwise the third hyphen-separated token of the base name, otherwise
unknown, always lower-cased.  povAmended is the correction: the filename
fallback fires only when the stem matches the ep-ch chapter pattern, the
header value must be non-empty to be used, and an empty selected token
falls back to unknown. -/

/-- The claim C8 rule as stated. -/
def povClaim (metaPov : Option String) (stem : String) : String :=
  match metaPov with
  | some p => strLower p
  | none =>
    match stemTokens stem with
    | _ :: _ :: t :: _ => strLower t
    | _ => "unknown"

/-- The filename fallback of the amended C8 rule. -/
def povFallbackAmended (stem : String) : String :=
  if chMatch stem.toList then
    match stemTokens stem with
    | _ :: _ :: t :: _ => if t = "" then "unknown" else strLower t
    | _ => "unknown"
  else "unknown"

/-- The amended C8 rule. -/
def povAmended (metaPov : Option String) (stem : String) : String :=
  match metaPov with
  | some p => if p = "" then povFallbackAmended stem else strLower p
  | none => povFallbackAmended stem

/-! ## Theorems for claims C6, C7, C8 -/

/-- A key is absent from an association table exactly when lookup fails. -/
theorem tableGet_eq_none {m : List (String × String)} {t : String} :
    tableGet m t = none ↔ t ∉ m.map Prod.fst := by
  induction m with
  | nil => simp [tableGet]
  | cons p rest ih =>
    obtain ⟨k, v⟩ := p
    by_cases h : t = k <;> simp [tableGet, h, ih]

/-- C6: every label of the extractor vocabularies has exactly one entry in
the corresponding normalizer table and maps onto the canonical store
vocabulary; a key outside a table fails with UnknownTypeError; and the
normalization of an extraction batch drops exactly the unmapped
entity or relation, keeping the rest, instead of crashing. -/
theorem c6_vocabulary_coverage :
    (∀ t ∈ ENTITY_TYPES, (ENTITY_TYPE_MAP.filter (fun p => p.1 = t)).length = 1 ∧
      ∃ v, normalizeEntityType t = .ok v ∧ v ∈ EntityTypeValues) ∧
    (∀ t ∈ RELATION_TYPES, (RELATION_TYPE_MAP.filter (fun p => p.1 = t)).length = 1 ∧
      ∃ v, normalizeRelationType t = .ok v ∧ v ∈ RelationTypeValues) ∧
    (∀ t, t ∉ ENTITY_TYPE_MAP.map Prod.fst →
      normalizeEntityType t = .error "UnknownTypeError") ∧
    (∀ t, t ∉ RELATION_TYPE_MAP.map Prod.fst →
      normalizeRelationType t = .error "UnknownTypeError") ∧
    (∀ xs ys (e : RawEntity), normalizeEntityType e.etype = .error "UnknownTypeError" →
      normalizeEntities (xs ++ e :: ys) = normalizeEntities xs ++ normalizeEntities ys) ∧
    (∀ xs ys (r : RawRelation), normalizeRelationType r.rtype = .error "UnknownTypeError" →
      normalizeRelations (xs ++ r :: ys) = normalizeRelations xs ++ normalizeRelations ys) := by
  refine ⟨?_, ?_, ?_, ?_, ?_, ?_⟩
  · intro t ht
    fin_cases ht <;> exact ⟨by decide, _, rfl, by decide⟩
  · intro t ht
    fin_cases ht <;> exact ⟨by decide, _, rfl, by decide⟩
  · intro t ht
    have h := tableGet_eq_none.mpr ht
    simp [normalizeEntityType, h]
  · intro t ht
    have h := tableGet_eq_none.mpr ht
    simp [normalizeRelationType, h]
  · intro xs ys e h
    simp [normalizeEntities, List.filterMap_append, List.filterMap_cons, h]
  · intro xs ys r h
    simp [normalizeRelations, List.filterMap_append, List.filterMap_cons, h]

/-- C6 witness: concrete instances of each part of the coverage theorem. -/
theorem c6_vocabulary_coverage_witness :
    ((ENTITY_TYPE_MAP.filter (fun p => p.1 = "PERSONAGGIO")).length = 1 ∧
      ∃ v, normalizeEntityType "PERSONAGGIO" = .ok v ∧ v ∈ EntityTypeValues) ∧
    ((RELATION_TYPE_MAP.filter (fun p => p.1 = "VIVE_A")).length = 1 ∧
      ∃ v, normalizeRelationType "VIVE_A" = .ok v ∧ v ∈ RelationTypeValues) ∧
    normalizeEntityType "EMOZIONE" = .error "UnknownTypeError" ∧
    normalizeEntities [⟨"Alice", "PERSONAGGIO", "d"⟩, ⟨"X", "EMOZIONE", "d"⟩] =
      normalizeEntities [⟨"Alice", "PERSONAGGIO", "d"⟩] ++ normalizeEntities [] :=
  ⟨c6_vocabulary_coverage.1 "PERSONAGGIO" (by decide),
   c6_vocabulary_coverage.2.1 "VIVE_A" (by decide),
   c6_vocabulary_coverage.2.2.1 "EMOZIONE" (by decide),
   c6_vocabulary_coverage.2.2.2.2.1 [⟨"Alice", "PERSONAGGIO", "d"⟩] [] ⟨"X", "EMOZIONE", "d"⟩
     (c6_vocabulary_coverage.2.2.1 "EMOZIONE" (by decide))⟩

/-- C7: constructing a relation record with a weight outside the closed
interval from 0 to 1 is rejected with a validation error, and a weight that
is accepted is stored unchanged, never clamped. -/
theorem c7_weight_bounds (id se te rt d : String) (w : ℚ) (ch : List String) (ia : Int) :
    (¬(0 ≤ w ∧ w ≤ 1) → mkRelationRecord id se te rt d w ch ia = .error "ValidationError") ∧
    (∀ rec, mkRelationRecord id se te rt d w ch ia = .ok rec → rec.weight = w) := by
  constructor
  · intro h
    rw [mkRelationRecord, if_neg h]
  · intro rec h
    by_cases hw : 0 ≤ w ∧ w ≤ 1
    · rw [mkRelationRecord, if_pos hw] at h
      injection h with h
      rw [← h]
    · rw [mkRelationRecord, if_neg hw] at h
      exact absurd h (by simp)

/-- C7 witness: a weight of three halves is rejected, a weight of one half
is stored unchanged. -/
theorem c7_weight_bounds_witness :
    mkRelationRecord "r" "a" "b" "KNOWS" "d" (3 / 2) [] 0 = .error "ValidationError" ∧
    (⟨"r", "a", "b", "KNOWS", "d", (1 / 2 : ℚ), [], 0⟩ : RelationRecord).weight = 1 / 2 :=
  ⟨(c7_weight_bounds "r" "a" "b" "KNOWS" "d" (3 / 2) [] 0).1 (by norm_num),
   (c7_weight_bounds "r" "a" "b" "KNOWS" "d" (1 / 2) [] 0).2 _
     (by rw [mkRelationRecord, if_pos (by norm_num)])⟩

/-- C8 counterexample: a chapter stem with three hyphen-separated tokens
that does not match the ep-ch pattern.  The claim rule selects the third
token gamma; the code leaves the pov empty and yields unknown. -/
theorem c8_counterexample :
    extractPov none "alpha-beta-gamma" = "unknown" ∧
    povClaim none "alpha-beta-gamma" = "gamma" ∧
    extractPov none "alpha-beta-gamma" ≠ povClaim none "alpha-beta-gamma" := by
  refine ⟨by decide, by decide, by decide⟩

/-- The fallback branch of extractPov agrees with the amended fallback
rule whenever the arriving pov value is empty. -/
theorem extractPov_empty_pov (s : String) :
    (if povAfterFallback "" s = "" then "unknown" else strLower (povAfterFallback "" s)) =
      povFallbackAmended s := by
  by_cases hm : chMatch s.toList
  · have hm1 : chMatch s.data = true := hm
    rcases h : stemTokens s with _ | ⟨a, _ | ⟨b, _ | ⟨t, rest⟩⟩⟩
    · simp [povAfterFallback, povFallbackAmended, hm, hm1, h]
    · simp [povAfterFallback, povFallbackAmended, hm, hm1, h]
    · simp [povAfterFallback, povFallbackAmended, hm, hm1, h]
    · by_cases ht : t = ""
      · simp [povAfterFallback, povFallbackAmended, hm, hm1, h, ht]
      · simp [povAfterFallback, povFallbackAmended, hm, hm1, h, ht]
  · have hm2 : chMatch s.data = false := by simpa using hm
    simp [povAfterFallback, povFallbackAmended, hm2]

/-- C8 (amended): the pov is the lower-cased header value when present and
non-empty; otherwise, when the stem matches the ep-ch chapter pattern and
splits into at least three hyphen-separated tokens with a non-empty third
token, the lower-cased third token; otherwise unknown. -/
theorem c8_pov_derivation (metaPov : Option String) (stem : String) :
    extractPov metaPov stem = povAmended metaPov stem := by
  cases metaPov with
  | none =>
    simpa [extractPov, povAmended] using extractPov_empty_pov stem
  | some p =>
    by_cases hp : p = ""
    · subst hp
      simpa [extractPov, povAmended] using extractPov_empty_pov stem
    · simp [extractPov, povAmended, povAfterFallback, hp]

/-! ## Dictionary lemmas -/

/-- Updating an existing key leaves lookups of other keys unchanged. -/
theorem dictGet_map_update_ne (rest : HashDict) (k v k' : String) (hne : k' ≠ k) :
    dictGet (rest.map (fun p => if p.1 = k then (k, v) else p)) k' = dictGet rest k' := by
  induction rest with
  | nil => rfl
  | cons p r ih =>
    obtain ⟨a, b⟩ := p
    rw [List.map_cons]
    by_cases ha : a = k
    · subst ha
      rw [if_pos (show (a, b).1 = a from rfl)]
      simp only [dictGet]
      rw [if_neg hne, if_neg hne]
      exact ih
    · rw [if_neg (show ¬(a, b).1 = k from ha)]
      simp only [dictGet]
      by_cases hk : k' = a
      · rw [if_pos hk, if_pos hk]
      · rw [if_neg hk, if_neg hk, ih]

/-- Updating a present key makes its lookup return the new value. -/
theorem dictGet_map_update_hit (m : HashDict) (k v : String)
    (hany : m.any (fun p => p.1 = k) = true) :
    dictGet (m.map (fun p => if p.1 = k then (k, v) else p)) k = some v := by
  induction m with
  | nil => simp at hany
  | cons p r ih =>
    obtain ⟨a, b⟩ := p
    rw [List.map_cons]
    by_cases ha : a = k
    · subst ha
      rw [if_pos (show (a, b).1 = a from rfl)]
      simp [dictGet]
    · rw [if_neg (show ¬(a, b).1 = k from ha)]
      simp only [dictGet]
      rw [if_neg (Ne.symm ha)]
      refine ih ?_
      rw [List.any_cons] at hany
      rcases Bool.or_eq_true_iff.mp hany with h1 | h1
      · exact absurd (of_decide_eq_true h1) ha
      · exact h1

/-- Lookup in the concatenation of two tables. -/
theorem dictGet_append (m1 m2 : HashDict) (k : String) :
    dictGet (m1 ++ m2) k =
      match dictGet m1 k with
      | some v => some v
      | none => dictGet m2 k := by
  induction m1 with
  | nil => rfl
  | cons p r ih =>
    obtain ⟨a, b⟩ := p
    by_cases ha : k = a <;> simp [dictGet, ha, ih]

/-- An absent key looks up to none. -/
theorem dictGet_eq_none_of_not_any (m : HashDict) (k : String)
    (h : m.any (fun p => p.1 = k) = false) : dictGet m k = none := by
  induction m with
  | nil => rfl
  | cons p r ih =>
    obtain ⟨a, b⟩ := p
    rw [List.any_cons, Bool.or_eq_false_iff] at h
    have ha : ¬k = a := by
      intro hk
      subst hk
      simp at h
    simp only [dictGet]
    rw [if_neg ha]
    exact ih h.2

/-- The dict get after a dict insert. -/
theorem dictGet_dictInsert (m : HashDict) (k v k' : String) :
    dictGet (dictInsert m k v) k' = if k' = k then some v else dictGet m k' := by
  unfold dictInsert
  by_cases hany : m.any (fun p => p.1 = k)
  · rw [if_pos hany]
    by_cases hk : k' = k
    · subst hk
      rw [if_pos rfl, dictGet_map_update_hit m k' v hany]
    · rw [if_neg hk, dictGet_map_update_ne m k v k' hk]
  · rw [if_neg hany, dictGet_append]
    have hfalse : m.any (fun p => p.1 = k) = false := Bool.eq_false_iff.mpr hany
    by_cases hk : k' = k
    · subst hk
      rw [dictGet_eq_none_of_not_any m k' hfalse, if_pos rfl]
      simp [dictGet]
    · cases h2 : dictGet m k' with
      | some v2 => rw [if_neg hk]
      | none =>
        rw [if_neg hk]
        simp only [dictGet]
        rw [if_neg hk]

/-! ## The stored hash of a path

lastHashFrom walks a record list left to right carrying the hash of the last
record seen so far whose path is the given one; it characterizes the dict
built by get_chapter_hashes, whose values are last-write-wins. -/

def lastHashFrom : Store → String → Option String → Option String
  | [], _, d => d
  | r :: rs, p, d => lastHashFrom rs p (if r.file_path = p then some r.file_hash else d)

theorem ghash_foldl (st : Store) : ∀ (m : HashDict) (p : String),
    dictGet (st.foldl (fun m r => dictInsert m r.file_path r.file_hash) m) p =
      lastHashFrom st p (dictGet m p) := by
  induction st with
  | nil => intro m p; rfl
  | cons r rs ih =>
    intro m p
    show dictGet (rs.foldl _ (dictInsert m r.file_path r.file_hash)) p = _
    rw [ih, dictGet_dictInsert]
    show lastHashFrom rs p _ = lastHashFrom rs p _
    congr 1
    by_cases h : p = r.file_path
    · rw [if_pos h, if_pos h.symm]
    · rw [if_neg h, if_neg (Ne.symm h)]

/-- The stored hash of a path is the hash of the last record with that path. -/
theorem ghash_get (st : Store) (p : String) :
    dictGet (get_chapter_hashes st) p = lastHashFrom st p none := by
  rw [get_chapter_hashes, ghash_foldl]
  rfl

theorem lastHashFrom_append (l1 l2 : Store) (p : String) : ∀ d,
    lastHashFrom (l1 ++ l2) p d = lastHashFrom l2 p (lastHashFrom l1 p d) := by
  induction l1 with
  | nil => intro d; rfl
  | cons r rs ih =>
    intro d
    exact ih (if r.file_path = p then some r.file_hash else d)

theorem lastHashFrom_all_ne (st : Store) (p : String)
    (h : ∀ r ∈ st, r.file_path ≠ p) : ∀ d, lastHashFrom st p d = d := by
  induction st with
  | nil => intro d; rfl
  | cons r rs ih =>
    intro d
    simp only [lastHashFrom]
    rw [if_neg (h r (by simp))]
    exact ih (fun x hx => h x (by simp [hx])) d

/-- lastHashFrom only looks at the records whose path is the given one. -/
theorem lastHashFrom_filter (st : Store) (p : String) : ∀ d,
    lastHashFrom st p d = lastHashFrom (st.filter (fun r => r.file_path = p)) p d := by
  induction st with
  | nil => intro d; rfl
  | cons r rs ih =>
    intro d
    by_cases h : r.file_path = p
    · rw [List.filter_cons, if_pos (by simp [h])]
      exact ih (if r.file_path = p then some r.file_hash else d)
    · rw [List.filter_cons, if_neg (by simp [h])]
      show lastHashFrom rs p (if r.file_path = p then some r.file_hash else d) = _
      rw [if_neg h]
      exact ih d

/-! ## Deletion lemmas -/

theorem delete_nil (st : Store) : delete_chapters_by_paths st [] = (st, 0) := by
  unfold delete_chapters_by_paths
  simp

theorem mem_delete {r : StoredRecord} {st : Store} {ps : List String} :
    r ∈ (delete_chapters_by_paths st ps).1 ↔ r ∈ st ∧ r.file_path ∉ ps := by
  unfold delete_chapters_by_paths
  simp

/-- Deleting paths other than p does not change the last hash of p. -/
theorem lastHashFrom_delete (st : Store) (ps : List String) (p : String)
    (hp : p ∉ ps) : ∀ d,
    lastHashFrom ((delete_chapters_by_paths st ps).1) p d = lastHashFrom st p d := by
  unfold delete_chapters_by_paths
  induction st with
  | nil => intro d; rfl
  | cons r rs ih =>
    intro d
    by_cases h : r.file_path ∈ ps
    · have hne : r.file_path ≠ p := by
        intro heq
        exact hp (heq ▸ h)
      simp only [List.filter_cons]
      rw [if_neg (by simp [h])]
      simp only [lastHashFrom]
      rw [if_neg hne]
      exact ih d
    · simp only [List.filter_cons]
      rw [if_pos (by simp [h])]
      simp only [lastHashFrom]
      exact ih _

/-! ## Key-set lemmas -/

theorem mem_dictKeys_dictInsert {m : HashDict} {k v k' : String} :
    k' ∈ dictKeys (dictInsert m k v) ↔ k' = k ∨ k' ∈ dictKeys m := by
  unfold dictInsert dictKeys
  by_cases hany : m.any (fun p => p.1 = k)
  · rw [if_pos hany]
    obtain ⟨q, hq, hqk⟩ : ∃ q ∈ m, q.1 = k := by
      simpa using hany
    constructor
    · intro h
      obtain ⟨x, hx, hfx⟩ := List.mem_map.mp h
      obtain ⟨y, hy, hfy⟩ := List.mem_map.mp hx
      by_cases hyk : y.1 = k
      · left
        rw [← hfx, ← hfy, if_pos hyk]
      · right
        rw [← hfx, ← hfy, if_neg hyk]
        exact List.mem_map_of_mem _ hy
    · intro h
      rcases h with h | h
      · subst h
        refine List.mem_map.mpr ⟨(k', v), ?_, rfl⟩
        refine List.mem_map.mpr ⟨q, hq, ?_⟩
        rw [if_pos hqk]
      · obtain ⟨y, hy, hfy⟩ := List.mem_map.mp h
        by_cases hyk : y.1 = k
        · refine List.mem_map.mpr ⟨(k, v), ?_, by rw [← hfy, hyk]⟩
          exact List.mem_map.mpr ⟨y, hy, by rw [if_pos hyk]⟩
        · refine List.mem_map.mpr ⟨y, ?_, hfy⟩
          exact List.mem_map.mpr ⟨y, hy, by rw [if_neg hyk]⟩
  · rw [if_neg hany]
    simp [or_comm]

theorem mem_dictKeys_ghash {st : Store} {p : String} :
    p ∈ dictKeys (get_chapter_hashes st) ↔ p ∈ st.map StoredRecord.file_path := by
  suffices h : ∀ (m : HashDict),
      p ∈ dictKeys (st.foldl (fun m r => dictInsert m r.file_path r.file_hash) m) ↔
        p ∈ dictKeys m ∨ p ∈ st.map StoredRecord.file_path by
    have h2 := h []
    simpa [get_chapter_hashes, dictKeys] using h2
  induction st with
  | nil => intro m; simp
  | cons r rs ih =>
    intro m
    show p ∈ dictKeys (rs.foldl _ (dictInsert m r.file_path r.file_hash)) ↔ _
    rw [ih, mem_dictKeys_dictInsert]
    simp only [List.map_cons, List.mem_cons]
    tauto

/-! ## Upsert lemmas -/

theorem mem_upsertOne {s r : StoredRecord} {st : Store} (h : s ∈ upsertOne st r) :
    s ∈ st ∨ s = r := by
  unfold upsertOne at h
  by_cases hany : st.any (fun x => x.id = r.id)
  · rw [if_pos hany] at h
    obtain ⟨x, hx, hfx⟩ := List.mem_map.mp h
    by_cases hid : x.id = r.id
    · right
      rw [← hfx, if_pos hid]
    · left
      rw [← hfx, if_neg hid]
      exact hx
  · rw [if_neg hany] at h
    rcases List.mem_append.mp h with h1 | h1
    · left; exact h1
    · right; simpa using h1

theorem mem_upsert_chapters {s : StoredRecord} {recs : List StoredRecord} :
    ∀ {st : Store}, s ∈ upsert_chapters st recs → s ∈ st ∨ s ∈ recs := by
  induction recs with
  | nil => intro st h; left; exact h
  | cons r rs ih =>
    intro st h
    have h' : s ∈ upsert_chapters (upsertOne st r) rs := h
    rcases ih h' with h1 | h1
    · rcases mem_upsertOne h1 with h2 | h2
      · left; exact h2
      · right; simp [h2]
    · right; simp [h1]

/-- Upserting a record of a different path, into a store where every record
sharing its id also avoids that path, leaves the records of the path
untouched. -/
theorem filter_upsertOne_ne (st : Store) (r : StoredRecord) (p : String)
    (hr : r.file_path ≠ p) (hst : ∀ s ∈ st, s.id = r.id → s.file_path ≠ p) :
    (upsertOne st r).filter (fun s => s.file_path = p) =
      st.filter (fun s => s.file_path = p) := by
  unfold upsertOne
  by_cases hany : st.any (fun x => x.id = r.id)
  · rw [if_pos hany]
    clear hany
    induction st with
    | nil => rfl
    | cons s rest ih =>
      have hrec := ih (fun x hx => hst x (by simp [hx]))
      rw [List.map_cons]
      by_cases hid : s.id = r.id
      · have hsp : s.file_path ≠ p := hst s (by simp) hid
        rw [if_pos hid, List.filter_cons, List.filter_cons,
          if_neg (by simp [hr]), if_neg (by simp [hsp])]
        exact hrec
      · rw [if_neg hid, List.filter_cons, List.filter_cons]
        by_cases hsp : s.file_path = p
        · rw [if_pos (by simp [hsp]), if_pos (by simp [hsp]), hrec]
        · rw [if_neg (by simp [hsp]), if_neg (by simp [hsp]), hrec]
  · rw [if_neg hany, List.filter_append]
    simp [hr]

/-- Upserting a batch of records that all avoid a path, with distinct ids
that the path-p records of the store do not carry, leaves the records of
the path untouched. -/
theorem filter_upsert_chapters_ne (recs : List StoredRecord) : ∀ (st : Store) (p : String),
    (∀ q ∈ recs, q.file_path ≠ p) →
    (recs.map StoredRecord.id).Nodup →
    (∀ q ∈ recs, ∀ s ∈ st, s.id = q.id → s.file_path ≠ p) →
    (upsert_chapters st recs).filter (fun s => s.file_path = p) =
      st.filter (fun s => s.file_path = p) := by
  induction recs with
  | nil => intro st p _ _ _; rfl
  | cons r rs ih =>
    intro st p hq hnd hcons
    rw [List.map_cons] at hnd
    have hnd2 := List.nodup_cons.mp hnd
    show (upsert_chapters (upsertOne st r) rs).filter _ = _
    rw [ih (upsertOne st r) p (fun q hqq => hq q (by simp [hqq])) hnd2.2 ?tail]
    · exact filter_upsertOne_ne st r p (hq r (by simp)) (fun s hs => hcons r (by simp) s hs)
    case tail =>
      intro q hqq s hs hid
      rcases mem_upsertOne hs with h1 | h1
      · exact hcons q (by simp [hqq]) s h1 hid
      · exfalso
        subst h1
        exact hnd2.1 (by rw [hid]; exact List.mem_map_of_mem _ hqq)

/-- Two members of a list of length at most one are equal. -/
theorem length_le_one_mem {α : Type} {l : List α} (h : l.length ≤ 1) {a b : α}
    (ha : a ∈ l) (hb : b ∈ l) : a = b := by
  match l with
  | [] => cases ha
  | [x] =>
    rw [List.mem_singleton] at ha hb
    rw [ha, hb]
  | x :: y :: rest => simp at h

theorem lastHashFrom_replicate (n : Nat) (rc : StoredRecord) (p : String)
    (hrc : rc.file_path = p) : ∀ d,
    lastHashFrom (List.replicate (n + 1) rc) p d = some rc.file_hash := by
  induction n with
  | zero =>
    intro d
    show lastHashFrom [] p (if rc.file_path = p then some rc.file_hash else d) = _
    rw [if_pos hrc]
    rfl
  | succ n ih =>
    intro d
    show lastHashFrom (List.replicate (n + 1) rc) p _ = _
    exact ih _

/-- Replacing in place every record with the hit id yields, on the records
of the hit path, copies of the new record only. -/
theorem filter_map_update_hit (st : Store) (rc : StoredRecord) (p : String)
    (hrc : rc.file_path = p) (hu : ∀ s ∈ st, s.file_path = p → s.id = rc.id) :
    (st.map (fun s => if s.id = rc.id then rc else s)).filter (fun s => s.file_path = p) =
      List.replicate (st.countP (fun s => s.id = rc.id)) rc := by
  induction st with
  | nil => rfl
  | cons s rest ih =>
    have hrec := ih (fun x hx => hu x (by simp [hx]))
    rw [List.map_cons, List.countP_cons]
    by_cases hid : s.id = rc.id
    · rw [if_pos hid, List.filter_cons, if_pos (by simp [hrc]), hrec]
      have : rest.countP (fun s => s.id = rc.id) + 1 =
          (rest.countP (fun s => s.id = rc.id)).succ := rfl
      simp [hid, List.replicate_succ]
    · have hsp : s.file_path ≠ p := fun hp2 => hid (hu s (by simp) hp2)
      rw [if_neg hid, List.filter_cons, if_neg (by simp [hsp]), hrec]
      simp [hid]

/-- Upserting a record whose path is p, into a store holding at most one
path-p record and where any record with the hit id sits at path p, makes
the last hash of p the hash of the new record. -/
theorem lastHashFrom_upsertOne_hit (st : Store) (rc : StoredRecord) (p : String)
    (hrc : rc.file_path = p)
    (hlen : (st.filter (fun s => s.file_path = p)).length ≤ 1)
    (hid : ∀ s ∈ st, s.id = rc.id → s.file_path = p) (d : Option String) :
    lastHashFrom (upsertOne st rc) p d = some rc.file_hash := by
  unfold upsertOne
  by_cases hany : st.any (fun x => x.id = rc.id)
  · rw [if_pos hany]
    obtain ⟨s0, hs0, hs0id⟩ : ∃ s0 ∈ st, s0.id = rc.id := by simpa using hany
    have hs0p : s0.file_path = p := hid s0 hs0 hs0id
    have hu : ∀ s ∈ st, s.file_path = p → s.id = rc.id := by
      intro s hs hsp
      have h1 : s ∈ st.filter (fun x => x.file_path = p) :=
        List.mem_filter.mpr ⟨hs, by simp [hsp]⟩
      have h2 : s0 ∈ st.filter (fun x => x.file_path = p) :=
        List.mem_filter.mpr ⟨hs0, by simp [hs0p]⟩
      rw [length_le_one_mem hlen h1 h2, hs0id]
    rw [lastHashFrom_filter, filter_map_update_hit st rc p hrc hu]
    have hn : 0 < st.countP (fun s => s.id = rc.id) :=
      List.countP_pos_iff.mpr ⟨s0, hs0, by simp [hs0id]⟩
    obtain ⟨n, hn2⟩ := Nat.exists_eq_succ_of_ne_zero (Nat.pos_iff_ne_zero.mp hn)
    rw [hn2]
    exact lastHashFrom_replicate n rc p hrc d
  · rw [if_neg hany, lastHashFrom_append]
    show lastHashFrom [] p (if rc.file_path = p then some rc.file_hash else _) = _
    rw [if_pos hrc]
    rfl

/-! ## Chain lemmas for whole upsert batches -/

/-- A batch that avoids the path p entirely leaves the last hash of p
unchanged. -/
theorem lastHashFrom_upsert_ne (recs : List StoredRecord) (st : Store) (p : String)
    (hq : ∀ q ∈ recs, q.file_path ≠ p)
    (hnd : (recs.map StoredRecord.id).Nodup)
    (hcons : ∀ q ∈ recs, ∀ s ∈ st, s.id = q.id → s.file_path ≠ p) :
    lastHashFrom (upsert_chapters st recs) p none = lastHashFrom st p none := by
  rw [lastHashFrom_filter, filter_upsert_chapters_ne recs st p hq hnd hcons,
    ← lastHashFrom_filter]

/-- At most one record of a store with pairwise-distinct paths sits at any
given path. -/
theorem filter_path_length_le_one (st : Store) (p : String)
    (h : (st.map StoredRecord.file_path).Nodup) :
    (st.filter (fun r => r.file_path = p)).length ≤ 1 := by
  induction st with
  | nil => simp
  | cons r rs ih =>
    rw [List.map_cons] at h
    have h2 := List.nodup_cons.mp h
    by_cases hr : r.file_path = p
    · have hempty : rs.filter (fun x => x.file_path = p) = [] := by
        rw [List.filter_eq_nil_iff]
        intro x hx
        simp only [decide_eq_true_eq]
        intro hxp
        exact h2.1 (by rw [hr, ← hxp]; exact List.mem_map_of_mem _ hx)
      rw [List.filter_cons, if_pos (by simp [hr]), hempty]
      simp
    · rw [List.filter_cons, if_neg (by simp [hr])]
      exact ih h2.2

/-- Upserting a batch containing exactly one record at path p, with
pairwise-distinct ids consistent with the store, makes the last hash of p
the hash of that record. -/
theorem lastHashFrom_upsert_hit (l1 l2 : List StoredRecord) (rc : StoredRecord)
    (st : Store) (p : String)
    (hrc : rc.file_path = p)
    (hq : ∀ q, (q ∈ l1 ∨ q ∈ l2) → q.file_path ≠ p)
    (hnd : ((l1 ++ rc :: l2).map StoredRecord.id).Nodup)
    (hcons : ∀ q ∈ l1 ++ rc :: l2, ∀ s ∈ st, s.id = q.id → s.file_path = q.file_path)
    (hlen : (st.filter (fun s => s.file_path = p)).length ≤ 1) :
    lastHashFrom (upsert_chapters st (l1 ++ rc :: l2)) p none = some rc.file_hash := by
  -- structure of the duplicate-free id list
  rw [List.map_append, List.map_cons] at hnd
  have hmid := List.nodup_middle.mp hnd
  have hid_rc : rc.id ∉ l1.map StoredRecord.id ++ l2.map StoredRecord.id :=
    (List.nodup_cons.mp hmid).1
  have happ := List.nodup_append.mp (List.nodup_cons.mp hmid).2
  have hnd1 : (l1.map StoredRecord.id).Nodup := happ.1
  have hnd2 : (l2.map StoredRecord.id).Nodup := happ.2.1
  have hdisj := happ.2.2
  -- split the batch
  have hsplit : upsert_chapters st (l1 ++ rc :: l2) =
      upsert_chapters (upsertOne (upsert_chapters st l1) rc) l2 := by
    unfold upsert_chapters
    rw [List.foldl_append]
    rfl
  rw [hsplit]
  -- the store after the first part of the batch
  have hfilter1 : (upsert_chapters st l1).filter (fun s => s.file_path = p) =
      st.filter (fun s => s.file_path = p) := by
    refine filter_upsert_chapters_ne l1 st p (fun q hqq => hq q (Or.inl hqq)) hnd1 ?_
    intro q hqq s hs hsid
    rw [hcons q (by simp [hqq]) s hs hsid]
    exact hq q (Or.inl hqq)
  have hlen1 : ((upsert_chapters st l1).filter (fun s => s.file_path = p)).length ≤ 1 := by
    rw [hfilter1]
    exact hlen
  have hid1 : ∀ s ∈ upsert_chapters st l1, s.id = rc.id → s.file_path = p := by
    intro s hs hsid
    rcases mem_upsert_chapters hs with h1 | h1
    · rw [hcons rc (by simp) s h1 hsid]
      exact hrc
    · exfalso
      apply hid_rc
      rw [← hsid]
      exact List.mem_append.mpr (Or.inl (List.mem_map_of_mem _ h1))
  -- the record rc lands as the last path-p record
  have hhit : lastHashFrom (upsertOne (upsert_chapters st l1) rc) p none =
      some rc.file_hash :=
    lastHashFrom_upsertOne_hit _ rc p hrc hlen1 hid1 none
  -- the second part of the batch does not disturb the path p
  have hfilter2 : (upsert_chapters (upsertOne (upsert_chapters st l1) rc) l2).filter
        (fun s => s.file_path = p) =
      (upsertOne (upsert_chapters st l1) rc).filter (fun s => s.file_path = p) := by
    refine filter_upsert_chapters_ne l2 _ p (fun q hqq => hq q (Or.inr hqq)) hnd2 ?_
    intro q hqq s hs hsid
    rcases mem_upsertOne hs with h1 | h1
    · rcases mem_upsert_chapters h1 with h2 | h2
      · rw [hcons q (by simp [hqq]) s h2 hsid]
        exact hq q (Or.inr hqq)
      · exfalso
        exact hdisj (List.mem_map_of_mem _ h2) (hsid ▸ List.mem_map_of_mem _ hqq)
    · exfalso
      apply hid_rc
      rw [h1] at hsid
      rw [hsid]
      exact List.mem_append.mpr (Or.inr (List.mem_map_of_mem _ hqq))
  rw [lastHashFrom_filter, hfilter2, ← lastHashFrom_filter]
  exact hhit

/-! ## Normal forms of the run -/

theorem zipSelf_map (l : List ChapterFile) (f : ChapterFile → String) (g : String → List ℚ) :
    ((l.zip ((l.map f).map g)).map (fun cv => prepare_chapter_record cv.1 cv.2)) =
      l.map (fun c => prepare_chapter_record c (g (f c))) := by
  induction l with
  | nil => rfl
  | cons c cs ih => simp only [List.map_cons, List.zip_cons_cons, ih]

theorem store1_guard (store : Store) (records : List StoredRecord) :
    (if records.isEmpty then store else upsert_chapters store records) =
      upsert_chapters store records := by
  by_cases h : records.isEmpty
  · rw [if_pos h, List.isEmpty_iff.mp h]
    rfl
  · rw [if_neg h]

theorem delete_guard (st1 : Store) (dp : List String) :
    (if dp.isEmpty then (st1, 0) else delete_chapters_by_paths st1 dp) =
      delete_chapters_by_paths st1 dp := by
  by_cases h : dp.isEmpty
  · rw [if_pos h, List.isEmpty_iff.mp h, delete_nil]
  · rw [if_neg h]

/-- A run whose filtered scan is empty returns zero counts and does not
touch the store or the services. -/
theorem index_timeline_empty (scanned : List ChapterFile) (store : Store) (force : Bool)
    (filt : Option String) (embedOne : String → List ℚ)
    (h : filteredChapters scanned filt = []) :
    index_timeline scanned store force filt embedOne = ⟨zeroResult, store, ⟨[], [], []⟩⟩ := by
  unfold index_timeline
  rw [h]
  rfl

/-- A run with no changed chapters and no deleted paths short-circuits. -/
theorem index_timeline_noop (scanned : List ChapterFile) (store : Store) (force : Bool)
    (filt : Option String) (embedOne : String → List ℚ)
    (hti : toIndexOf (filteredChapters scanned filt)
      (if force then [] else get_chapter_hashes store) = [])
    (hdp : deletedPathsOf (filteredChapters scanned filt)
      (if force then [] else get_chapter_hashes store) = []) :
    index_timeline scanned store force filt embedOne = ⟨zeroResult, store, ⟨[], [], []⟩⟩ := by
  by_cases hne : filteredChapters scanned filt = []
  · exact index_timeline_empty scanned store force filt embedOne hne
  · have h1 : (filteredChapters scanned filt).isEmpty = false := by
      simpa [List.isEmpty_iff] using hne
    simp only [index_timeline, h1, hti, hdp, Bool.false_eq_true, if_false,
      List.isEmpty_nil, Bool.and_self, if_true]

/-- The main branch of the run in closed form: both guards removed, the
records in map form. -/
theorem index_timeline_main (scanned : List ChapterFile) (store : Store) (force : Bool)
    (filt : Option String) (embedOne : String → List ℚ)
    (hne : filteredChapters scanned filt ≠ [])
    (hmain : toIndexOf (filteredChapters scanned filt)
        (if force then [] else get_chapter_hashes store) ≠ [] ∨
      deletedPathsOf (filteredChapters scanned filt)
        (if force then [] else get_chapter_hashes store) ≠ []) :
    index_timeline scanned store force filt embedOne =
      ⟨⟨((recordsOf embedOne (toIndexOf (filteredChapters scanned filt)
            (if force then [] else get_chapter_hashes store))).filter
            (fun r => dictGet (if force then [] else get_chapter_hashes store)
              r.file_path = none)).length,
        (recordsOf embedOne (toIndexOf (filteredChapters scanned filt)
            (if force then [] else get_chapter_hashes store))).length -
          ((recordsOf embedOne (toIndexOf (filteredChapters scanned filt)
            (if force then [] else get_chapter_hashes store))).filter
            (fun r => dictGet (if force then [] else get_chapter_hashes store)
              r.file_path = none)).length,
        (delete_chapters_by_paths
          (upsert_chapters store (recordsOf embedOne (toIndexOf
            (filteredChapters scanned filt)
            (if force then [] else get_chapter_hashes store))))
          (deletedPathsOf (filteredChapters scanned filt)
            (if force then [] else get_chapter_hashes store))).2, 0, 0⟩,
       (delete_chapters_by_paths
          (upsert_chapters store (recordsOf embedOne (toIndexOf
            (filteredChapters scanned filt)
            (if force then [] else get_chapter_hashes store))))
          (deletedPathsOf (filteredChapters scanned filt)
            (if force then [] else get_chapter_hashes store))).1,
       ⟨(toIndexOf (filteredChapters scanned filt)
            (if force then [] else get_chapter_hashes store)).map
          (fun c => c.content.take 2000),
        recordsOf embedOne (toIndexOf (filteredChapters scanned filt)
            (if force then [] else get_chapter_hashes store)),
        deletedPathsOf (filteredChapters scanned filt)
            (if force then [] else get_chapter_hashes store)⟩⟩ := by
  have h1 : (filteredChapters scanned filt).isEmpty = false := by
    simpa [List.isEmpty_iff] using hne
  have h2 : ((toIndexOf (filteredChapters scanned filt)
        (if force then [] else get_chapter_hashes store)).isEmpty &&
      (deletedPathsOf (filteredChapters scanned filt)
        (if force then [] else get_chapter_hashes store)).isEmpty) = false := by
    rcases hmain with h | h
    · rw [Bool.and_eq_false_iff]
      left
      simpa [List.isEmpty_iff] using h
    · rw [Bool.and_eq_false_iff]
      right
      simpa [List.isEmpty_iff] using h
  simp only [index_timeline, h1, h2, Bool.false_eq_true, if_false]
  rw [zipSelf_map, store1_guard, delete_guard]
  rfl

/-! ## Counting lemmas -/

/-- The indexed count over prepared records equals the count over the
to_index chapters, since record paths are chapter paths. -/
theorem filter_records_length (E : HashDict) (embedOne : String → List ℚ)
    (ti : List ChapterFile) :
    ((recordsOf embedOne ti).filter (fun r => dictGet E r.file_path = none)).length =
      (ti.filter (fun c => dictGet E c.file_path = none)).length := by
  rw [← List.countP_eq_length_filter, ← List.countP_eq_length_filter, recordsOf,
    List.countP_map]
  rfl

/-- The chapters with a stored path and those without split the scan. -/
theorem filter_none_some_split (E : HashDict) (ti : List ChapterFile) :
    (ti.filter (fun c => dictGet E c.file_path = none)).length +
      (ti.filter (fun c => ¬dictGet E c.file_path = none)).length = ti.length := by
  rw [← List.countP_eq_length_filter, ← List.countP_eq_length_filter,
    List.length_eq_countP_add_countP (fun c => decide (dictGet E c.file_path = none)) ti]
  congr 1
  rw [List.countP_eq_length_filter, List.countP_eq_length_filter]
  congr 1
  apply List.filter_congr
  intro x hx
  by_cases h : dictGet E x.file_path = none <;> simp [h]

/-! ## Claim C4 -/

/-- C4: a run in which to_index and deleted_paths are both empty, including
the case of a scan yielding no chapters, returns all-zero counts, leaves
the store untouched, and calls neither the embedding service nor the store
upsert or delete. -/
theorem c4_noop_short_circuit (scanned : List ChapterFile) (store : Store) (force : Bool)
    (filt : Option String) (embedOne : String → List ℚ)
    (h : filteredChapters scanned filt = [] ∨
      (toIndexOf (filteredChapters scanned filt)
          (if force then [] else get_chapter_hashes store) = [] ∧
        deletedPathsOf (filteredChapters scanned filt)
          (if force then [] else get_chapter_hashes store) = [])) :
    (index_timeline scanned store force filt embedOne).result = zeroResult ∧
    (index_timeline scanned store force filt embedOne).store = store ∧
    (index_timeline scanned store force filt embedOne).effects.embedded = [] ∧
    (index_timeline scanned store force filt embedOne).effects.upserted = [] ∧
    (index_timeline scanned store force filt embedOne).effects.deleteRequest = [] := by
  rcases h with h | ⟨h1, h2⟩
  · rw [index_timeline_empty scanned store force filt embedOne h]
    exact ⟨rfl, rfl, rfl, rfl, rfl⟩
  · rw [index_timeline_noop scanned store force filt embedOne h1 h2]
    exact ⟨rfl, rfl, rfl, rfl, rfl⟩

/-- C4 witness: the empty corpus on the empty store. -/
theorem c4_noop_short_circuit_witness :
    (index_timeline [] [] false none (fun _ => [])).result = zeroResult ∧
    (index_timeline [] [] false none (fun _ => [])).store = [] ∧
    (index_timeline [] [] false none (fun _ => [])).effects.embedded = [] ∧
    (index_timeline [] [] false none (fun _ => [])).effects.upserted = [] ∧
    (index_timeline [] [] false none (fun _ => [])).effects.deleteRequest = [] :=
  c4_noop_short_circuit [] [] false none (fun _ => []) (Or.inl rfl)

/-! ## Claim C10 -/

/-- C10: in force mode the stored hash set is taken to be empty, so every
filtered chapter lands in to_index and is counted under indexed, the
deletion diff is empty, the run reports updated and deleted zero, and no
delete request reaches the store. -/
theorem c10_force_mode (scanned : List ChapterFile) (store : Store)
    (filt : Option String) (embedOne : String → List ℚ) :
    toIndexOf (filteredChapters scanned filt) [] = filteredChapters scanned filt ∧
    deletedPathsOf (filteredChapters scanned filt) [] = [] ∧
    (index_timeline scanned store true filt embedOne).result.indexed =
      (filteredChapters scanned filt).length ∧
    (index_timeline scanned store true filt embedOne).result.updated = 0 ∧
    (index_timeline scanned store true filt embedOne).result.deleted = 0 ∧
    (index_timeline scanned store true filt embedOne).effects.deleteRequest = [] := by
  have hti : toIndexOf (filteredChapters scanned filt) [] = filteredChapters scanned filt := by
    apply List.filter_eq_self.mpr
    intro c hc
    simp [dictGet]
  have hdp : deletedPathsOf (filteredChapters scanned filt) [] = [] := rfl
  refine ⟨hti, hdp, ?_⟩
  by_cases hne : filteredChapters scanned filt = []
  · rw [index_timeline_empty scanned store true filt embedOne hne, hne]
    exact ⟨rfl, rfl, rfl, rfl⟩
  · have hE : (if (true : Bool) then ([] : HashDict) else get_chapter_hashes store) = [] := rfl
    have hmain : toIndexOf (filteredChapters scanned filt)
          (if true then [] else get_chapter_hashes store) ≠ [] ∨
        deletedPathsOf (filteredChapters scanned filt)
          (if true then [] else get_chapter_hashes store) ≠ [] := by
      left
      rw [hE, hti]
      exact hne
    rw [index_timeline_main scanned store true filt embedOne hne hmain]
    simp only [if_true, hti, hdp, delete_nil]
    have hall : (recordsOf embedOne (filteredChapters scanned filt)).filter
        (fun r => dictGet [] r.file_path = none) =
        recordsOf embedOne (filteredChapters scanned filt) := by
      apply List.filter_eq_self.mpr
      intro r hr
      simp [dictGet]
    rw [hall]
    simp [recordsOf, Nat.sub_self]

/-! ## Claim C2 -/

/-- C2: in an incremental run, a scanned chapter whose path has a stored
hash differing from the fresh hash is in to_index and its path counts as
stored; the run tallies indexed as the to_index chapters with no stored
path and updated as those with a stored path; and a chapter whose stored
hash matches exactly is not in to_index, the embedded texts are exactly the
to_index texts, and no upserted record carries its path. -/
theorem c2_change_detection (scanned : List ChapterFile) (store : Store)
    (filt : Option String) (embedOne : String → List ℚ) (c : ChapterFile)
    (hnd : ((filteredChapters scanned filt).map ChapterFile.file_path).Nodup)
    (hc : c ∈ filteredChapters scanned filt) :
    (∀ h, dictGet (get_chapter_hashes store) c.file_path = some h → h ≠ c.file_hash →
      c ∈ toIndexOf (filteredChapters scanned filt) (get_chapter_hashes store) ∧
      ¬dictGet (get_chapter_hashes store) c.file_path = none) ∧
    (index_timeline scanned store false filt embedOne).result.indexed =
      ((toIndexOf (filteredChapters scanned filt) (get_chapter_hashes store)).filter
        (fun d => dictGet (get_chapter_hashes store) d.file_path = none)).length ∧
    (index_timeline scanned store false filt embedOne).result.updated =
      ((toIndexOf (filteredChapters scanned filt) (get_chapter_hashes store)).filter
        (fun d => ¬dictGet (get_chapter_hashes store) d.file_path = none)).length ∧
    (dictGet (get_chapter_hashes store) c.file_path = some c.file_hash →
      c ∉ toIndexOf (filteredChapters scanned filt) (get_chapter_hashes store) ∧
      (index_timeline scanned store false filt embedOne).effects.embedded =
        (toIndexOf (filteredChapters scanned filt) (get_chapter_hashes store)).map
          (fun d => d.content.take 2000) ∧
      ∀ r ∈ (index_timeline scanned store false filt embedOne).effects.upserted,
        r.file_path ≠ c.file_path) := by
  have hne : filteredChapters scanned filt ≠ [] := List.ne_nil_of_mem hc
  have hE : (if (false : Bool) then ([] : HashDict) else get_chapter_hashes store) =
      get_chapter_hashes store := rfl
  have hrun : (index_timeline scanned store false filt embedOne).result.indexed =
        ((toIndexOf (filteredChapters scanned filt) (get_chapter_hashes store)).filter
          (fun d => dictGet (get_chapter_hashes store) d.file_path = none)).length ∧
      (index_timeline scanned store false filt embedOne).result.updated =
        ((toIndexOf (filteredChapters scanned filt) (get_chapter_hashes store)).filter
          (fun d => ¬dictGet (get_chapter_hashes store) d.file_path = none)).length ∧
      (index_timeline scanned store false filt embedOne).effects.embedded =
        (toIndexOf (filteredChapters scanned filt) (get_chapter_hashes store)).map
          (fun d => d.content.take 2000) ∧
      ∀ r ∈ (index_timeline scanned store false filt embedOne).effects.upserted,
        ∃ d ∈ toIndexOf (filteredChapters scanned filt) (get_chapter_hashes store),
          r.file_path = d.file_path := by
    by_cases hno : toIndexOf (filteredChapters scanned filt) (get_chapter_hashes store) = [] ∧
        deletedPathsOf (filteredChapters scanned filt) (get_chapter_hashes store) = []
    · rw [index_timeline_noop scanned store false filt embedOne hno.1 hno.2, hno.1]
      refine ⟨by trivial, by trivial, by trivial, ?_⟩
      intro r hr
      simp at hr
    · have hmain : toIndexOf (filteredChapters scanned filt)
            (if false then [] else get_chapter_hashes store) ≠ [] ∨
          deletedPathsOf (filteredChapters scanned filt)
            (if false then [] else get_chapter_hashes store) ≠ [] := by
        rcases Decidable.not_and_iff_or_not.mp hno with h | h
        · exact Or.inl h
        · exact Or.inr h
      rw [index_timeline_main scanned store false filt embedOne hne hmain]
      simp only [hE]
      refine ⟨filter_records_length _ _ _, ?_, by trivial, ?_⟩
      · rw [filter_records_length, recordsOf, List.length_map]
        have := filter_none_some_split (get_chapter_hashes store)
          (toIndexOf (filteredChapters scanned filt) (get_chapter_hashes store))
        omega
      · intro r hr
        obtain ⟨d, hd, hdr⟩ := List.mem_map.mp hr
        refine ⟨d, hd, ?_⟩
        rw [← hdr]
        rfl
  refine ⟨?_, hrun.1, hrun.2.1, ?_⟩
  · intro h hsh hneq
    constructor
    · refine List.mem_filter.mpr ⟨hc, ?_⟩
      simp [hsh, hneq]
    · simp [hsh]
  · intro hmatch
    have hnotin : c ∉ toIndexOf (filteredChapters scanned filt) (get_chapter_hashes store) := by
      intro hin
      have h2 := (List.mem_filter.mp hin).2
      simp [hmatch] at h2
    refine ⟨hnotin, hrun.2.2.1, ?_⟩
    intro r hr heq
    obtain ⟨d, hd, hpath⟩ := hrun.2.2.2 r hr
    have hdf : d ∈ filteredChapters scanned filt := (List.mem_filter.mp hd).1
    have hdc : d = c :=
      List.inj_on_of_nodup_map hnd hdf hc (by rw [← hpath, heq])
    exact hnotin (hdc ▸ hd)

/-- C2 witness: one stored chapter whose content hash changed; the run
reports it under updated with indexed zero. -/
theorem c2_change_detection_witness :
    (⟨"w/ep01-e/ep01-ch001-al-t.md", "new", "w", 1, 1, "al", "t",
        none, none, none, "body"⟩ : ChapterFile) ∈
      toIndexOf (filteredChapters
        [⟨"w/ep01-e/ep01-ch001-al-t.md", "new", "w", 1, 1, "al", "t",
          none, none, none, "body"⟩] none)
        (get_chapter_hashes [⟨"w:ep01:ch001", "w/ep01-e/ep01-ch001-al-t.md", "old",
          "w", 1, 1, "al", "t", none, none, "body", "body", []⟩]) ∧
    (index_timeline
        [⟨"w/ep01-e/ep01-ch001-al-t.md", "new", "w", 1, 1, "al", "t",
          none, none, none, "body"⟩]
        [⟨"w:ep01:ch001", "w/ep01-e/ep01-ch001-al-t.md", "old",
          "w", 1, 1, "al", "t", none, none, "body", "body", []⟩]
        false none (fun _ => [])).result.updated = 1 ∧
    (index_timeline
        [⟨"w/ep01-e/ep01-ch001-al-t.md", "new", "w", 1, 1, "al", "t",
          none, none, none, "body"⟩]
        [⟨"w:ep01:ch001", "w/ep01-e/ep01-ch001-al-t.md", "old",
          "w", 1, 1, "al", "t", none, none, "body", "body", []⟩]
        false none (fun _ => [])).result.indexed = 0 := by
  have h := c2_change_detection
    [⟨"w/ep01-e/ep01-ch001-al-t.md", "new", "w", 1, 1, "al", "t",
      none, none, none, "body"⟩]
    [⟨"w:ep01:ch001", "w/ep01-e/ep01-ch001-al-t.md", "old",
      "w", 1, 1, "al", "t", none, none, "body", "body", []⟩]
    none (fun _ => [])
    ⟨"w/ep01-e/ep01-ch001-al-t.md", "new", "w", 1, 1, "al", "t",
      none, none, none, "body"⟩
    (by decide) (by decide)
  refine ⟨(h.1 "old" (by decide) (by decide)).1, ?_, ?_⟩
  · rw [h.2.2.1]
    decide
  · rw [h.2.1]
    decide

/-! ## Claim C3 -/

/-- On a store with pairwise-distinct record paths the hash dict is the
plain list of path-hash pairs. -/
theorem ghash_of_nodup (st : Store) (h : (st.map StoredRecord.file_path).Nodup) :
    get_chapter_hashes st = st.map (fun r => (r.file_path, r.file_hash)) := by
  suffices hgen : ∀ (st : Store) (m : HashDict),
      (∀ r ∈ st, r.file_path ∉ dictKeys m) → (st.map StoredRecord.file_path).Nodup →
      st.foldl (fun m r => dictInsert m r.file_path r.file_hash) m =
        m ++ st.map (fun r => (r.file_path, r.file_hash)) by
    have h2 := hgen st [] (by simp [dictKeys]) h
    simpa [get_chapter_hashes] using h2
  intro st
  induction st with
  | nil => intro m _ _; simp
  | cons r rs ih =>
    intro m hfresh hnd
    rw [List.map_cons] at hnd
    have hnd2 := List.nodup_cons.mp hnd
    have hnotany : ¬(m.any (fun p => p.1 = r.file_path) = true) := by
      intro hany
      obtain ⟨p, hp, hpk⟩ : ∃ p ∈ m, p.1 = r.file_path := by simpa using hany
      exact hfresh r (by simp) (by rw [← hpk]; exact List.mem_map_of_mem _ hp)
    have hins : dictInsert m r.file_path r.file_hash = m ++ [(r.file_path, r.file_hash)] := by
      unfold dictInsert
      rw [if_neg hnotany]
    show rs.foldl _ (dictInsert m r.file_path r.file_hash) = _
    rw [hins, ih (m ++ [(r.file_path, r.file_hash)]) ?fresh hnd2.2]
    · rw [List.map_cons, List.append_assoc]
      rfl
    case fresh =>
      intro x hx
      rw [dictKeys, List.map_append]
      intro hmem
      rcases List.mem_append.mp hmem with h1 | h1
      · exact hfresh x (by simp [hx]) h1
      · have h2 : x.file_path = r.file_path := by simpa using h1
        exact hnd2.1 (h2 ▸ List.mem_map_of_mem _ hx)

/-- Deleting the diffed paths from a store with pairwise-distinct paths
removes exactly one record per diffed path. -/
theorem delete_count_of_nodup (store : Store) (L : List ChapterFile)
    (hns : (store.map StoredRecord.file_path).Nodup) :
    (delete_chapters_by_paths store
      (deletedPathsOf L (get_chapter_hashes store))).2 =
      (deletedPathsOf L (get_chapter_hashes store)).length := by
  have hkeys : dictKeys (get_chapter_hashes store) = store.map StoredRecord.file_path := by
    rw [ghash_of_nodup store hns, dictKeys, List.map_map]
    rfl
  unfold delete_chapters_by_paths deletedPathsOf
  rw [hkeys]
  show (store.filter (fun r => r.file_path ∈
      (store.map StoredRecord.file_path).filter
        (fun p => p ∉ L.map ChapterFile.file_path))).length = _
  rw [← List.countP_eq_length_filter]
  have h1 : store.countP (fun r => r.file_path ∈
      (store.map StoredRecord.file_path).filter
        (fun p => p ∉ L.map ChapterFile.file_path)) =
      (store.map StoredRecord.file_path).countP (fun p => p ∈
        (store.map StoredRecord.file_path).filter
          (fun q => q ∉ L.map ChapterFile.file_path)) := by
    rw [List.countP_map]
    rfl
  rw [h1, List.countP_eq_length_filter]
  congr 1
  apply List.filter_congr
  intro x hx
  by_cases h : x ∈ L.map ChapterFile.file_path
  · have hxdp : x ∉ (store.map StoredRecord.file_path).filter
        (fun p => p ∉ L.map ChapterFile.file_path) := by
      intro hmem
      have h2 := (List.mem_filter.mp hmem).2
      exact (of_decide_eq_true h2) h
    rw [decide_eq_false hxdp, decide_eq_false (not_not_intro h)]
  · have hxdp : x ∈ (store.map StoredRecord.file_path).filter
        (fun p => p ∉ L.map ChapterFile.file_path) :=
      List.mem_filter.mpr ⟨hx, decide_eq_true h⟩
    rw [decide_eq_true hxdp, decide_eq_true h]

/-- C3 (amended): for an incremental run whose filtered scan is non-empty,
deleted_paths is exactly the set of stored paths absent from the scanned
path set, that list is the delete request sent to the store, and no record
with such a path survives the run; when moreover no scanned chapter changed
and the store paths are pairwise distinct, the run reports deleted equal to
the number of such paths, with indexed and updated zero. -/
theorem c3_deletion_reconciliation (scanned : List ChapterFile) (store : Store)
    (filt : Option String) (embedOne : String → List ℚ)
    (hne : filteredChapters scanned filt ≠ []) :
    (∀ p, p ∈ deletedPathsOf (filteredChapters scanned filt) (get_chapter_hashes store) ↔
      (p ∈ store.map StoredRecord.file_path ∧
        p ∉ (filteredChapters scanned filt).map ChapterFile.file_path)) ∧
    (index_timeline scanned store false filt embedOne).effects.deleteRequest =
      deletedPathsOf (filteredChapters scanned filt) (get_chapter_hashes store) ∧
    (∀ p ∈ deletedPathsOf (filteredChapters scanned filt) (get_chapter_hashes store),
      ∀ r ∈ (index_timeline scanned store false filt embedOne).store, r.file_path ≠ p) ∧
    (toIndexOf (filteredChapters scanned filt) (get_chapter_hashes store) = [] →
      (store.map StoredRecord.file_path).Nodup →
      (index_timeline scanned store false filt embedOne).result.indexed = 0 ∧
      (index_timeline scanned store false filt embedOne).result.updated = 0 ∧
      (index_timeline scanned store false filt embedOne).result.deleted =
        (deletedPathsOf (filteredChapters scanned filt)
          (get_chapter_hashes store)).length) := by
  have hE : (if (false : Bool) then ([] : HashDict) else get_chapter_hashes store) =
      get_chapter_hashes store := rfl
  refine ⟨?_, ?_⟩
  · intro p
    unfold deletedPathsOf
    rw [List.mem_filter]
    constructor
    · rintro ⟨h1, h2⟩
      exact ⟨mem_dictKeys_ghash.mp h1, by simpa using h2⟩
    · rintro ⟨h1, h2⟩
      exact ⟨mem_dictKeys_ghash.mpr h1, by simpa using h2⟩
  by_cases hno : toIndexOf (filteredChapters scanned filt) (get_chapter_hashes store) = [] ∧
      deletedPathsOf (filteredChapters scanned filt) (get_chapter_hashes store) = []
  · rw [index_timeline_noop scanned store false filt embedOne hno.1 hno.2]
    refine ⟨by rw [hno.2], ?_, ?_⟩
    · intro p hp
      rw [hno.2] at hp
      cases hp
    · intro _ _
      refine ⟨by trivial, by trivial, ?_⟩
      rw [hno.2]
      rfl
  · have hmain : toIndexOf (filteredChapters scanned filt)
          (if false then [] else get_chapter_hashes store) ≠ [] ∨
        deletedPathsOf (filteredChapters scanned filt)
          (if false then [] else get_chapter_hashes store) ≠ [] := by
      rcases Decidable.not_and_iff_or_not.mp hno with h | h
      · exact Or.inl h
      · exact Or.inr h
    rw [index_timeline_main scanned store false filt embedOne hne hmain]
    simp only [hE]
    refine ⟨by trivial, ?_, ?_⟩
    · intro p hp r hr heq
      exact (mem_delete.mp hr).2 (heq ▸ hp)
    · intro hti hns
      rw [hti]
      refine ⟨by trivial, by trivial, ?_⟩
      show (delete_chapters_by_paths (upsert_chapters store (recordsOf embedOne [])) _).2 = _
      show (delete_chapters_by_paths store _).2 = _
      exact delete_count_of_nodup store (filteredChapters scanned filt) hns

/-- A chapter file fixture for the C3 instance: path A, hash h1. -/
def c3chA : ChapterFile :=
  ⟨"A", "h1", "arc", 1, 1, "p", "t", none, none, none, "x"⟩

/-- The stored record for path A with hash h1. -/
def c3recA : StoredRecord :=
  ⟨"arc:ep01:ch001", "A", "h1", "arc", 1, 1, "p", "t", none, none, "x", "x", []⟩

/-- The stored record for path B with hash h2. -/
def c3recB : StoredRecord :=
  ⟨"arc:ep01:ch002", "B", "h2", "arc", 1, 2, "p", "t", none, none, "y", "y", []⟩

/-- C3 witness: the instance of the claim — stored paths A and B, a scan
producing only the unchanged A — reports deleted one, updated zero,
indexed zero, and B is gone from the store. -/
theorem c3_deletion_reconciliation_witness :
    ((index_timeline [c3chA] [c3recA, c3recB] false none (fun _ => [])).result.indexed = 0 ∧
      (index_timeline [c3chA] [c3recA, c3recB] false none (fun _ => [])).result.updated = 0 ∧
      (index_timeline [c3chA] [c3recA, c3recB] false none (fun _ => [])).result.deleted =
        (deletedPathsOf (filteredChapters [c3chA] none)
          (get_chapter_hashes [c3recA, c3recB])).length) ∧
    (deletedPathsOf (filteredChapters [c3chA] none)
      (get_chapter_hashes [c3recA, c3recB])) = ["B"] ∧
    (∀ r ∈ (index_timeline [c3chA] [c3recA, c3recB] false none (fun _ => [])).store,
      r.file_path ≠ "B") := by
  have h := c3_deletion_reconciliation [c3chA] [c3recA, c3recB] none (fun _ => [])
    (by decide)
  exact ⟨h.2.2.2 (by decide) (by decide), by decide, h.2.2.1 "B" (by decide)⟩

/-- C3 counterexample: two runs covered by the claim as stated in which a
stored path absent from the scanned set is not deleted: an incremental run
whose scan is empty, and a force run.  In both the claim predicts deleted
one and removal of B; the code reports deleted zero and keeps B. -/
theorem c3_counterexample :
    (index_timeline [] [c3recB] false none (fun _ => [])).result.deleted = 0 ∧
    (index_timeline [] [c3recB] false none (fun _ => [])).store = [c3recB] ∧
    (index_timeline [c3chA] [c3recA, c3recB] true none (fun _ => [])).result.deleted = 0 ∧
    c3recB ∈ (index_timeline [c3chA] [c3recA, c3recB] true none (fun _ => [])).store := by
  refine ⟨rfl, rfl, rfl, by decide⟩

/-! ## Claim C9 -/

/-- C9 (amended): in an incremental run with an arc filter whose filtered
scan is non-empty, every stored path carried by a scanned chapter of a
different arc lands in deleted_paths and no record with that path survives
the run, even though the source file still exists on disk. -/
theorem c9_filter_deletion (scanned : List ChapterFile) (store : Store) (a : String)
    (embedOne : String → List ℚ) (c0 : ChapterFile) (r0 : StoredRecord)
    (hnd : (scanned.map ChapterFile.file_path).Nodup)
    (hc0 : c0 ∈ scanned) (harc : c0.arc ≠ a)
    (hr0 : r0 ∈ store) (hpath : r0.file_path = c0.file_path)
    (hne : filteredChapters scanned (some a) ≠ []) :
    c0.file_path ∈ deletedPathsOf (filteredChapters scanned (some a))
      (get_chapter_hashes store) ∧
    ∀ r ∈ (index_timeline scanned store false (some a) embedOne).store,
      r.file_path ≠ c0.file_path := by
  have hkey : c0.file_path ∈ dictKeys (get_chapter_hashes store) :=
    mem_dictKeys_ghash.mpr (by rw [← hpath]; exact List.mem_map_of_mem _ hr0)
  have hnotin : c0.file_path ∉ (filteredChapters scanned (some a)).map
      ChapterFile.file_path := by
    intro hmem
    obtain ⟨d, hd, hdpath⟩ := List.mem_map.mp hmem
    have hd2 : d ∈ scanned.filter (fun c => c.arc = a) := hd
    have hdf : d ∈ scanned := (List.mem_filter.mp hd2).1
    have hda : d.arc = a := by simpa using (List.mem_filter.mp hd2).2
    have hdc : d = c0 := List.inj_on_of_nodup_map hnd hdf hc0 hdpath
    rw [hdc] at hda
    exact harc hda
  have hdp : c0.file_path ∈ deletedPathsOf (filteredChapters scanned (some a))
      (get_chapter_hashes store) := by
    unfold deletedPathsOf
    refine List.mem_filter.mpr ⟨hkey, ?_⟩
    simpa using hnotin
  refine ⟨hdp, ?_⟩
  have hmain : toIndexOf (filteredChapters scanned (some a))
        (if false then [] else get_chapter_hashes store) ≠ [] ∨
      deletedPathsOf (filteredChapters scanned (some a))
        (if false then [] else get_chapter_hashes store) ≠ [] :=
    Or.inr (List.ne_nil_of_mem hdp)
  rw [index_timeline_main scanned store false (some a) embedOne hne hmain]
  intro r hr heq
  exact (mem_delete.mp hr).2 (heq ▸ hdp)

/-- A chapter of the filtered arc, keeping the filtered scan non-empty. -/
def c9chA : ChapterFile :=
  ⟨"a/ep01-x/ep01-ch001-p-t.md", "ha", "a", 1, 1, "p", "t", none, none, none, "one"⟩

/-- A chapter of another arc whose file exists on disk. -/
def c9chB : ChapterFile :=
  ⟨"b/ep01-y/ep01-ch001-q-u.md", "hb", "b", 1, 1, "q", "u", none, none, none, "two"⟩

/-- The stored record for the other-arc chapter. -/
def c9recB : StoredRecord :=
  ⟨"b:ep01:ch001", "b/ep01-y/ep01-ch001-q-u.md", "hb", "b", 1, 1, "q", "u",
    none, none, "two", "two", []⟩

/-- C9 witness: a run filtered to arc a deletes the stored chapter of arc b
although its file is still scanned. -/
theorem c9_filter_deletion_witness :
    c9chB.file_path ∈ deletedPathsOf (filteredChapters [c9chA, c9chB] (some "a"))
      (get_chapter_hashes [c9recB]) ∧
    ∀ r ∈ (index_timeline [c9chA, c9chB] [c9recB] false (some "a")
        (fun _ => [])).store,
      r.file_path ≠ c9chB.file_path :=
  c9_filter_deletion [c9chA, c9chB] [c9recB] "a" (fun _ => []) c9chB c9recB
    (by decide) (by decide) (by decide) (by decide) (by decide) (by decide)

/-- C9 counterexample: when the filter matches no scanned chapter the run
returns before diffing, so the stored path of another arc is neither placed
in a delete request nor removed, although the claim as stated requires its
deletion; the run reports deleted zero and the store is untouched. -/
theorem c9_counterexample :
    c9chB.arc ≠ "a" ∧
    c9recB.file_path = c9chB.file_path ∧
    (index_timeline [c9chB] [c9recB] false (some "a") (fun _ => [])).store = [c9recB] ∧
    (index_timeline [c9chB] [c9recB] false (some "a") (fun _ => [])).result.deleted = 0 ∧
    (index_timeline [c9chB] [c9recB] false (some "a")
      (fun _ => [])).effects.deleteRequest = [] := by
  refine ⟨by decide, rfl, rfl, rfl, rfl⟩

/-! ## Claim C1 -/

theorem recordsOf_map_id (e : String → List ℚ) (l : List ChapterFile) :
    (recordsOf e l).map StoredRecord.id = l.map chapterId := by
  rw [recordsOf, List.map_map]
  rfl

/-- C1 (amended): a second incremental run on an unchanged filesystem
reports zero indexed, updated and deleted, provided the scanned chapters
have pairwise-distinct file paths and pairwise-distinct chapter ids, the
starting store has pairwise-distinct record paths, and no store record
pairs the id of a scanned chapter with a different file path. -/
theorem c1_idempotence (scanned : List ChapterFile) (store0 : Store)
    (embedOne : String → List ℚ)
    (hpaths : (scanned.map ChapterFile.file_path).Nodup)
    (hids : (scanned.map chapterId).Nodup)
    (hstore : (store0.map StoredRecord.file_path).Nodup)
    (hcons : ∀ r ∈ store0, ∀ c ∈ scanned, r.id = chapterId c →
      r.file_path = c.file_path) :
    (index_timeline scanned
      (index_timeline scanned store0 false none embedOne).store
      false none embedOne).result.indexed = 0 ∧
    (index_timeline scanned
      (index_timeline scanned store0 false none embedOne).store
      false none embedOne).result.updated = 0 ∧
    (index_timeline scanned
      (index_timeline scanned store0 false none embedOne).store
      false none embedOne).result.deleted = 0 := by
  by_cases hscan : scanned = []
  · subst hscan
    rw [index_timeline_empty []
      (index_timeline [] store0 false none embedOne).store false none embedOne rfl]
    exact ⟨rfl, rfl, rfl⟩
  have hE0 : (if (false : Bool) then ([] : HashDict) else get_chapter_hashes store0) =
      get_chapter_hashes store0 := rfl
  have hfc : filteredChapters scanned none = scanned := rfl
  -- the state of the store after the first run
  have key : (∀ c ∈ scanned,
        lastHashFrom (index_timeline scanned store0 false none embedOne).store
          c.file_path none = some c.file_hash) ∧
      (∀ r ∈ (index_timeline scanned store0 false none embedOne).store,
        r.file_path ∈ scanned.map ChapterFile.file_path) := by
    by_cases hno : toIndexOf scanned (get_chapter_hashes store0) = [] ∧
        deletedPathsOf scanned (get_chapter_hashes store0) = []
    · rw [index_timeline_noop scanned store0 false none embedOne hno.1 hno.2]
      constructor
      · intro c hc
        have hcnot : c ∉ toIndexOf scanned (get_chapter_hashes store0) := by
          rw [hno.1]
          exact List.not_mem_nil c
        have h2 : dictGet (get_chapter_hashes store0) c.file_path = some c.file_hash := by
          by_contra hne2
          exact hcnot (List.mem_filter.mpr ⟨hc, by simpa using hne2⟩)
        rw [← ghash_get]
        exact h2
      · intro r hr
        have hk : r.file_path ∈ dictKeys (get_chapter_hashes store0) :=
          mem_dictKeys_ghash.mpr (List.mem_map_of_mem _ hr)
        by_contra hnotc
        have h3 : r.file_path ∈ deletedPathsOf scanned (get_chapter_hashes store0) :=
          List.mem_filter.mpr ⟨hk, by simpa using hnotc⟩
        rw [hno.2] at h3
        cases h3
    · have hmain : toIndexOf (filteredChapters scanned none)
            (if false then [] else get_chapter_hashes store0) ≠ [] ∨
          deletedPathsOf (filteredChapters scanned none)
            (if false then [] else get_chapter_hashes store0) ≠ [] := by
        rcases Decidable.not_and_iff_or_not.mp hno with h | h
        · exact Or.inl h
        · exact Or.inr h
      rw [index_timeline_main scanned store0 false none embedOne hscan hmain]
      simp only [hE0, hfc]
      -- shared facts about to_index
      have hsubp : ((toIndexOf scanned (get_chapter_hashes store0)).map
            ChapterFile.file_path).Sublist (scanned.map ChapterFile.file_path) :=
        List.Sublist.map _ (List.filter_sublist _)
      have htipnd := hsubp.nodup hpaths
      have hsubi : ((toIndexOf scanned (get_chapter_hashes store0)).map
            chapterId).Sublist (scanned.map chapterId) :=
        List.Sublist.map _ (List.filter_sublist _)
      have htiind := hsubi.nodup hids
      constructor
      · intro c hc
        have hpc : c.file_path ∈ scanned.map ChapterFile.file_path :=
          List.mem_map_of_mem _ hc
        have hpdp : c.file_path ∉ deletedPathsOf scanned (get_chapter_hashes store0) := by
          intro hmem
          have h2 := (List.mem_filter.mp hmem).2
          exact (of_decide_eq_true h2) hpc
        rw [lastHashFrom_delete _ _ _ hpdp]
        by_cases hcin : c ∈ toIndexOf scanned (get_chapter_hashes store0)
        · obtain ⟨t1, t2, hsplit⟩ := List.append_of_mem hcin
          have hrecords : recordsOf embedOne (toIndexOf scanned (get_chapter_hashes store0)) =
              recordsOf embedOne t1 ++
                prepare_chapter_record c (embedOne (c.content.take 2000)) ::
                recordsOf embedOne t2 := by
            rw [hsplit, recordsOf, List.map_append, List.map_cons]
            rfl
          rw [hrecords]
          have hmid : c.file_path ∉ t1.map ChapterFile.file_path ++
              t2.map ChapterFile.file_path := by
            have h4 := htipnd
            rw [hsplit, List.map_append, List.map_cons] at h4
            exact (List.nodup_cons.mp (List.nodup_middle.mp h4)).1
          have hq : ∀ q, (q ∈ recordsOf embedOne t1 ∨ q ∈ recordsOf embedOne t2) →
              q.file_path ≠ c.file_path := by
            rintro q (hq1 | hq1) heq
            · obtain ⟨d, hd, hdq⟩ := List.mem_map.mp hq1
              apply hmid
              refine List.mem_append.mpr (Or.inl ?_)
              rw [← heq, ← hdq]
              exact List.mem_map_of_mem _ hd
            · obtain ⟨d, hd, hdq⟩ := List.mem_map.mp hq1
              apply hmid
              refine List.mem_append.mpr (Or.inr ?_)
              rw [← heq, ← hdq]
              exact List.mem_map_of_mem _ hd
          have hnd9 : ((recordsOf embedOne t1 ++
              prepare_chapter_record c (embedOne (c.content.take 2000)) ::
              recordsOf embedOne t2).map StoredRecord.id).Nodup := by
            rw [← hrecords, recordsOf_map_id]
            exact htiind
          have hcons9 : ∀ q ∈ recordsOf embedOne t1 ++
              prepare_chapter_record c (embedOne (c.content.take 2000)) ::
              recordsOf embedOne t2, ∀ s ∈ store0, s.id = q.id →
              s.file_path = q.file_path := by
            intro q hq9 s hs hsq
            rw [← hrecords] at hq9
            obtain ⟨d, hd, hdq⟩ := List.mem_map.mp hq9
            have hdf : d ∈ scanned := (List.mem_filter.mp hd).1
            rw [← hdq]
            exact hcons s hs d hdf (by rw [hsq, ← hdq]; rfl)
          exact lastHashFrom_upsert_hit (recordsOf embedOne t1) (recordsOf embedOne t2)
            (prepare_chapter_record c (embedOne (c.content.take 2000))) store0
            c.file_path rfl hq hnd9 hcons9
            (filter_path_length_le_one store0 c.file_path hstore)
        · have hsome : dictGet (get_chapter_hashes store0) c.file_path =
              some c.file_hash := by
            by_contra hne2
            exact hcin (List.mem_filter.mpr ⟨hc, by simpa using hne2⟩)
          rw [lastHashFrom_upsert_ne _ store0 _ ?hq ?hnd ?hcons]
          · rw [← ghash_get]
            exact hsome
          case hq =>
            intro q hq9 heq
            obtain ⟨d, hd, hdq⟩ := List.mem_map.mp hq9
            have hdf : d ∈ scanned := (List.mem_filter.mp hd).1
            have hdc : d = c :=
              List.inj_on_of_nodup_map hpaths hdf hc (by rw [← hdq] at heq; exact heq)
            rw [hdc] at hd
            exact hcin hd
          case hnd =>
            rw [recordsOf_map_id]
            exact htiind
          case hcons =>
            intro q hq9 s hs hsq heq
            obtain ⟨d, hd, hdq⟩ := List.mem_map.mp hq9
            have hdf : d ∈ scanned := (List.mem_filter.mp hd).1
            have hsd : s.file_path = d.file_path :=
              hcons s hs d hdf (by rw [hsq, ← hdq]; rfl)
            have hdc : d = c := by
              refine List.inj_on_of_nodup_map hpaths hdf hc ?_
              rw [← hsd, heq]
            rw [hdc] at hd
            exact hcin hd
      · intro r hr
        have h2 := mem_delete.mp hr
        rcases mem_upsert_chapters h2.1 with h3 | h3
        · have hk : r.file_path ∈ dictKeys (get_chapter_hashes store0) :=
            mem_dictKeys_ghash.mpr (List.mem_map_of_mem _ h3)
          by_contra hnot
          exact h2.2 (List.mem_filter.mpr ⟨hk, by simpa using hnot⟩)
        · obtain ⟨d, hd, hdr⟩ := List.mem_map.mp h3
          have hdf : d ∈ scanned := (List.mem_filter.mp hd).1
          rw [← hdr]
          exact List.mem_map_of_mem (fun x => x.file_path) hdf
  -- the second run finds nothing to do
  have hti2 : toIndexOf scanned
      (get_chapter_hashes (index_timeline scanned store0 false none embedOne).store) = [] := by
    apply List.filter_eq_nil_iff.mpr
    intro c hc
    simp [ghash_get, key.1 c hc]
  have hdp2 : deletedPathsOf scanned
      (get_chapter_hashes (index_timeline scanned store0 false none embedOne).store) = [] := by
    apply List.filter_eq_nil_iff.mpr
    intro p hp
    have h2 := mem_dictKeys_ghash.mp hp
    obtain ⟨r, hr, hrp⟩ := List.mem_map.mp h2
    have h3 := key.2 r hr
    rw [hrp] at h3
    simp [h3]
  rw [index_timeline_noop scanned _ false none embedOne hti2 hdp2]
  exact ⟨rfl, rfl, rfl⟩

/-- A single well-formed chapter for the C1 witness. -/
def c1wch : ChapterFile :=
  ⟨"w/ep01-e/ep01-ch001-al-t.md", "hw", "w", 1, 1, "al", "t",
    none, none, none, "body"⟩

/-- C1 witness: a run over one chapter from the empty store followed by a
second run reports all-zero counts. -/
theorem c1_idempotence_witness :
    (index_timeline [c1wch]
      (index_timeline [c1wch] [] false none (fun _ => [])).store
      false none (fun _ => [])).result.indexed = 0 ∧
    (index_timeline [c1wch]
      (index_timeline [c1wch] [] false none (fun _ => [])).store
      false none (fun _ => [])).result.updated = 0 ∧
    (index_timeline [c1wch]
      (index_timeline [c1wch] [] false none (fun _ => [])).store
      false none (fun _ => [])).result.deleted = 0 :=
  c1_idempotence [c1wch] [] (fun _ => []) (by decide) (by decide) (by decide)
    (fun r hr => absurd hr (List.not_mem_nil r))

/-- The first of two chapter files sharing one chapter identity. -/
def c1xchA : ChapterFile :=
  ⟨"a/ep01-x/ep01-ch001-p-t.md", "h1", "a", 1, 1, "p", "t",
    none, none, none, "one"⟩

/-- The second chapter file with the same arc, episode and chapter number
but a distinct path. -/
def c1xchB : ChapterFile :=
  ⟨"a/ep01-x/ep01-ch001-q-u.md", "h2", "a", 1, 1, "q", "u",
    none, none, none, "two"⟩

/-- C1 counterexample: two distinct files mapping to the same chapter id.
The upsert by chapter identity keeps only one of their records, so the
second run on the unchanged filesystem re-indexes the evicted one and
reports indexed one instead of the zero the claim requires. -/
theorem c1_counterexample :
    chapterId c1xchA = chapterId c1xchB ∧
    c1xchA.file_path ≠ c1xchB.file_path ∧
    (index_timeline [c1xchA, c1xchB]
      (index_timeline [c1xchA, c1xchB] [] false none (fun _ => [])).store
      false none (fun _ => [])).result.indexed = 1 := by
  refine ⟨rfl, by decide, rfl⟩

end Echoes
